import Mathlib

/-!
Verification of the CPU-scheduling engine of `TrabalhoSO.py` (ProbSched).

The scheduling core is shallowly embedded: the `Processo` record, the
shared engine state, and the three `executar` loops (FCFS, SJF with its
`preemptivo` flag, Round-Robin) are translated statement by statement from
the Python source.  Simulation times are modelled as integers and the
while-loops as fuel-indexed step functions; termination of the loops is
proved separately.  Python's stable `list.sort(key=...)` is modelled by
`List.insertionSort`, which is also stable.
-/

namespace TrabalhoSO

/-- Record `Processo` of the source: identity, arrival time, remaining burst
(`tempo_execucao`, mutated during execution), immutable original burst
snapshot, and the metric fields the schedulers fill in. -/
structure Processo where
  pid : Nat
  tempo_chegada : Int
  tempo_execucao : Int
  tempo_execucao_original : Int
  tempo_espera : Int
  tempo_resposta_total : Int
  tempo_conclusao : Option Int
  tempo_resposta : Option Int
deriving DecidableEq

/-- Constructor `Processo.__init__`: `tempo_execucao_original` snapshots
`tempo_execucao`; metrics start at zero or unset. -/
def mkProcesso (pid : Nat) (tempo_chegada tempo_execucao : Int) : Processo :=
  { pid := pid
    tempo_chegada := tempo_chegada
    tempo_execucao := tempo_execucao
    tempo_execucao_original := tempo_execucao
    tempo_espera := 0
    tempo_resposta_total := 0
    tempo_conclusao := none
    tempo_resposta := none }

/-- Sort key used by FCFS and by `EscalonadorBase.__init__`: ascending
arrival time (`key=lambda p: p.tempo_chegada`). -/
def chegadaLe (a b : Processo) : Prop :=
  a.tempo_chegada ≤ b.tempo_chegada

instance : DecidableRel chegadaLe :=
  fun a b => Int.decLe a.tempo_chegada b.tempo_chegada

instance : IsTotal Processo chegadaLe :=
  ⟨fun a b => Int.le_total a.tempo_chegada b.tempo_chegada⟩

instance : IsTrans Processo chegadaLe :=
  ⟨fun _ _ _ h1 h2 => le_trans h1 h2⟩

/-- Sort key used by SJF: ascending remaining burst
(`key=lambda x: x.tempo_execucao`). -/
def execucaoLe (a b : Processo) : Prop :=
  a.tempo_execucao ≤ b.tempo_execucao

instance : DecidableRel execucaoLe :=
  fun a b => Int.decLe a.tempo_execucao b.tempo_execucao

instance : IsTotal Processo execucaoLe :=
  ⟨fun a b => Int.le_total a.tempo_execucao b.tempo_execucao⟩

instance : IsTrans Processo execucaoLe :=
  ⟨fun _ _ _ h1 h2 => le_trans h1 h2⟩

/-- Aggregate metrics dictionary returned by
`EscalonadorBase.calcular_metricas`. -/
structure Metricas where
  tempo_espera_medio : ℚ
  tempo_resposta_total_medio : ℚ
  taxa_processamento : ℚ
  utilizacao_cpu : ℚ
deriving DecidableEq

/-- `EscalonadorBase.calcular_metricas`: `None` on an empty completed list,
otherwise the four aggregates (means, throughput with its `tempo_atual > 0`
guard, utilization against `max(tempo_atual, 1)`). -/
def calcularMetricas (concluidos : List Processo) (tempo_atual : Int) : Option Metricas :=
  if concluidos = [] then none
  else some
    { tempo_espera_medio :=
        (((concluidos.map fun p => p.tempo_espera).sum : Int) : ℚ) / (concluidos.length : ℚ)
      tempo_resposta_total_medio :=
        (((concluidos.map fun p => p.tempo_resposta_total).sum : Int) : ℚ) / (concluidos.length : ℚ)
      taxa_processamento :=
        if 0 < tempo_atual then (concluidos.length : ℚ) / ((tempo_atual : Int) : ℚ) else 0
      utilizacao_cpu :=
        (((concluidos.map fun p => p.tempo_execucao_original).sum : Int) : ℚ)
          / (((max tempo_atual 1 : Int) : ℚ)) * 100 }

/-- State of the shared engine loop (`EscalonadorBase` fields plus the local
ready queue `fila_prontos` of `executar`). -/
structure SchedState where
  processos : List Processo
  fila_prontos : List Processo
  tempo_atual : Int
  processos_concluidos : List Processo
deriving DecidableEq

/-- `EscalonadorBase.__init__`: processes sorted (stably) by arrival time,
clock at 0, nothing completed; `executar` starts with an empty ready queue. -/
def initState (ps : List Processo) : SchedState :=
  { processos := List.insertionSort chegadaLe ps
    fila_prontos := []
    tempo_atual := 0
    processos_concluidos := [] }

/-- Negation of the `while self.processos or fila_prontos` loop guard. -/
def loopDone (st : SchedState) : Prop :=
  st.processos = [] ∧ st.fila_prontos = []

instance decLoopDone (st : SchedState) : Decidable (loopDone st) :=
  inferInstanceAs (Decidable (st.processos = [] ∧ st.fila_prontos = []))

/-- The `recem_chegados` list: pending processes whose arrival time is at
most the current clock. -/
def chegadosDe (st : SchedState) : List Processo :=
  st.processos.filter fun p => decide (p.tempo_chegada ≤ st.tempo_atual)

/-- Pending processes that have not yet arrived (what remains of
`self.processos` after the `remove` calls). -/
def pendentesDe (st : SchedState) : List Processo :=
  st.processos.filter fun p => !(decide (p.tempo_chegada ≤ st.tempo_atual))

/-- Ready queue of one FCFS iteration after extending it with the newly
arrived processes and sorting by arrival time. -/
def fcfsFila (st : SchedState) : List Processo :=
  List.insertionSort chegadaLe (st.fila_prontos ++ chegadosDe st)

/-- One iteration of the `EscalonadorFCFS.executar` while-loop. -/
def fcfsStep (st : SchedState) : SchedState :=
  match fcfsFila st with
  | [] =>
    { processos := pendentesDe st
      fila_prontos := []
      tempo_atual := st.tempo_atual + 1
      processos_concluidos := st.processos_concluidos }
  | p :: resto =>
    let t := st.tempo_atual + p.tempo_execucao
    let p1 := { p with
      tempo_espera := max 0 (st.tempo_atual - p.tempo_chegada)
      tempo_resposta_total := t - p.tempo_chegada
      tempo_conclusao := some t }
    { processos := pendentesDe st
      fila_prontos := resto
      tempo_atual := t
      processos_concluidos := st.processos_concluidos ++ [p1] }

/-- The FCFS while-loop, indexed by fuel. -/
def fcfsRun : Nat → SchedState → SchedState
  | 0, st => st
  | n + 1, st => if loopDone st then st else fcfsRun n (fcfsStep st)

/-- `EscalonadorFCFS(processos).executar()` up to the returned metrics:
the final engine state after `fuel` loop iterations. -/
def fcfsExecutar (ps : List Processo) (fuel : Nat) : SchedState :=
  fcfsRun fuel (initState ps)

/-- The metrics value returned by `EscalonadorFCFS.executar`. -/
def fcfsMetricas (ps : List Processo) (fuel : Nat) : Option Metricas :=
  calcularMetricas (fcfsExecutar ps fuel).processos_concluidos (fcfsExecutar ps fuel).tempo_atual

/-- Value of `min(fila_prontos, key=lambda x: x.tempo_execucao).tempo_execucao`
on a non-empty list (0 on `[]`, where the source never evaluates it). -/
def minExecucao : List Processo → Int
  | [] => 0
  | p :: resto => resto.foldl (fun m q => min m q.tempo_execucao) p.tempo_execucao

/-- Ready queue of one SJF iteration after extending it with the newly
arrived processes and sorting by remaining burst time. -/
def sjfFila (st : SchedState) : List Processo :=
  List.insertionSort execucaoLe (st.fila_prontos ++ chegadosDe st)

/-- One iteration of the `EscalonadorSJF.executar` while-loop, including the
`preemptivo` re-check that requeues the selected process when a strictly
shorter job remains in the ready queue. -/
def sjfStep (preemptivo : Bool) (st : SchedState) : SchedState :=
  match sjfFila st with
  | [] =>
    { processos := pendentesDe st
      fila_prontos := []
      tempo_atual := st.tempo_atual + 1
      processos_concluidos := st.processos_concluidos }
  | p :: resto =>
    let p1 := { p with tempo_espera := max 0 (st.tempo_atual - p.tempo_chegada) }
    if preemptivo = true ∧ resto ≠ [] ∧ minExecucao resto < p1.tempo_execucao then
      { processos := pendentesDe st
        fila_prontos := resto ++ [p1]
        tempo_atual := st.tempo_atual
        processos_concluidos := st.processos_concluidos }
    else
      let t := st.tempo_atual + p1.tempo_execucao
      let p2 := { p1 with
        tempo_execucao := 0
        tempo_resposta_total := t - p1.tempo_chegada
        tempo_conclusao := some t }
      { processos := pendentesDe st
        fila_prontos := resto
        tempo_atual := t
        processos_concluidos := st.processos_concluidos ++ [p2] }

/-- The SJF while-loop, indexed by fuel. -/
def sjfRun (preemptivo : Bool) : Nat → SchedState → SchedState
  | 0, st => st
  | n + 1, st => if loopDone st then st else sjfRun preemptivo n (sjfStep preemptivo st)

/-- `EscalonadorSJF(processos).executar(preemptivo)` up to the returned
metrics: the final engine state after `fuel` loop iterations. -/
def sjfExecutar (preemptivo : Bool) (ps : List Processo) (fuel : Nat) : SchedState :=
  sjfRun preemptivo fuel (initState ps)

/-- The metrics value returned by `EscalonadorSJF.executar`. -/
def sjfMetricas (preemptivo : Bool) (ps : List Processo) (fuel : Nat) : Option Metricas :=
  calcularMetricas (sjfExecutar preemptivo ps fuel).processos_concluidos
    (sjfExecutar preemptivo ps fuel).tempo_atual

/-- State of `EscalonadorRoundRobin.executar`: the shared engine fields, the
quantum, and the two pid-keyed dictionaries.  The dictionaries are modelled
as total functions; the source reads an entry only after initialising it on
arrival, so the default values are never observed.  `despachos` is a ghost
dispatch log, recording `(pid, clock)` each time a process is popped for a
slice; no other field depends on it. -/
structure RRState where
  processos : List Processo
  fila_prontos : List Processo
  tempo_atual : Int
  processos_concluidos : List Processo
  quantum_tempo : Int
  primeira_execucao : Nat → Bool
  fim_ultima_execucao : Nat → Int
  despachos : List (Nat × Int)

/-- `EscalonadorRoundRobin.__init__`. -/
def rrInit (ps : List Processo) (quantum_tempo : Int) : RRState :=
  { processos := List.insertionSort chegadaLe ps
    fila_prontos := []
    tempo_atual := 0
    processos_concluidos := []
    quantum_tempo := quantum_tempo
    primeira_execucao := fun _ => false
    fim_ultima_execucao := fun _ => 0
    despachos := [] }

/-- Negation of the Round-Robin loop guard. -/
def rrLoopDone (st : RRState) : Prop :=
  st.processos = [] ∧ st.fila_prontos = []

instance decRrLoopDone (st : RRState) : Decidable (rrLoopDone st) :=
  inferInstanceAs (Decidable (st.processos = [] ∧ st.fila_prontos = []))

/-- The `recem_chegados` list of one Round-Robin iteration. -/
def rrChegados (st : RRState) : List Processo :=
  st.processos.filter fun p => decide (p.tempo_chegada ≤ st.tempo_atual)

/-- Pending processes remaining after the Round-Robin arrival scan. -/
def rrPendentes (st : RRState) : List Processo :=
  st.processos.filter fun p => !(decide (p.tempo_chegada ≤ st.tempo_atual))

/-- Ready queue of one Round-Robin iteration: FIFO, newly arrived processes
appended after the existing entries (no sort). -/
def rrFila (st : RRState) : List Processo :=
  st.fila_prontos ++ rrChegados st

/-- Minimum arrival time of a non-empty pending list
(`min(p.tempo_chegada for p in self.processos)`; 0 on `[]`, never used). -/
def proximaChegada : List Processo → Int
  | [] => 0
  | p :: resto => resto.foldl (fun m q => min m q.tempo_chegada) p.tempo_chegada

/-- One iteration of the `EscalonadorRoundRobin.executar` while-loop. -/
def rrStep (st : RRState) : RRState :=
  let primeira := (rrChegados st).foldl
    (fun f p => fun pid => if pid = p.pid then false else f pid) st.primeira_execucao
  let fim := (rrChegados st).foldl
    (fun f p => fun pid => if pid = p.pid then (0 : Int) else f pid) st.fim_ultima_execucao
  match rrFila st with
  | [] =>
    match rrPendentes st with
    | [] =>
      { st with
        processos := []
        fila_prontos := []
        primeira_execucao := primeira
        fim_ultima_execucao := fim }
    | q :: qs =>
      { st with
        processos := rrPendentes st
        fila_prontos := []
        tempo_atual := max (st.tempo_atual + 1) (proximaChegada (q :: qs))
        primeira_execucao := primeira
        fim_ultima_execucao := fim }
  | p :: resto =>
    let resposta : Option Int :=
      if primeira p.pid then p.tempo_resposta
      else some (st.tempo_atual - p.tempo_chegada)
    let primeira2 : Nat → Bool :=
      if primeira p.pid then primeira
      else fun pid => if pid = p.pid then true else primeira pid
    let espera : Int :=
      if 0 < fim p.pid then p.tempo_espera + (st.tempo_atual - fim p.pid)
      else p.tempo_espera + (st.tempo_atual - p.tempo_chegada)
    let texec : Int := min st.quantum_tempo p.tempo_execucao
    let t := st.tempo_atual + texec
    let fim2 : Nat → Int := fun pid => if pid = p.pid then t else fim pid
    let p1 := { p with
      tempo_resposta := resposta
      tempo_espera := espera
      tempo_execucao := p.tempo_execucao - texec }
    if 0 < p1.tempo_execucao then
      { processos := rrPendentes st
        fila_prontos := resto ++ [p1]
        tempo_atual := t
        processos_concluidos := st.processos_concluidos
        quantum_tempo := st.quantum_tempo
        primeira_execucao := primeira2
        fim_ultima_execucao := fim2
        despachos := st.despachos ++ [(p.pid, st.tempo_atual)] }
    else
      let p2 := { p1 with
        tempo_resposta_total := t - p1.tempo_chegada
        tempo_conclusao := some t }
      { processos := rrPendentes st
        fila_prontos := resto
        tempo_atual := t
        processos_concluidos := st.processos_concluidos ++ [p2]
        quantum_tempo := st.quantum_tempo
        primeira_execucao := primeira2
        fim_ultima_execucao := fim2
        despachos := st.despachos ++ [(p.pid, st.tempo_atual)] }

/-- The Round-Robin while-loop, indexed by fuel. -/
def rrRun : Nat → RRState → RRState
  | 0, st => st
  | n + 1, st => if rrLoopDone st then st else rrRun n (rrStep st)

/-- `EscalonadorRoundRobin(processos, quantum).executar()` up to the returned
metrics: the final engine state after `fuel` loop iterations. -/
def rrExecutar (ps : List Processo) (quantum : Int) (fuel : Nat) : RRState :=
  rrRun fuel (rrInit ps quantum)

/-- The metrics value returned by `EscalonadorRoundRobin.executar`. -/
def rrMetricas (ps : List Processo) (quantum : Int) (fuel : Nat) : Option Metricas :=
  calcularMetricas (rrExecutar ps quantum fuel).processos_concluidos
    (rrExecutar ps quantum fuel).tempo_atual

/-- Validity of one input process: non-negative arrival, positive burst, and
fresh metric fields (the state `Processo.__init__` creates). -/
def ValidProcesso (p : Processo) : Prop :=
  0 ≤ p.tempo_chegada ∧ 0 < p.tempo_execucao ∧
    p.tempo_execucao = p.tempo_execucao_original ∧
    p.tempo_espera = 0 ∧ p.tempo_resposta_total = 0 ∧
    p.tempo_conclusao = none ∧ p.tempo_resposta = none

instance decValidProcesso (p : Processo) : Decidable (ValidProcesso p) :=
  inferInstanceAs (Decidable (_ ∧ _ ∧ _ ∧ _ ∧ _ ∧ _ ∧ _))

/-- Validity of a whole workload. -/
def ValidInput (ps : List Processo) : Prop :=
  ∀ p ∈ ps, ValidProcesso p

instance decValidInput (ps : List Processo) : Decidable (ValidInput ps) :=
  inferInstanceAs (Decidable (∀ p ∈ ps, ValidProcesso p))

/-- Process identifiers of a list, in order. -/
def pids (l : List Processo) : List Nat :=
  l.map fun p => p.pid

/-- Total remaining burst of a list of processes, as a natural number. -/
def execSum (l : List Processo) : Nat :=
  (l.map fun p => p.tempo_execucao.toNat).sum

/-- Total distance from the clock `t` to the future arrival times of `l`. -/
def gapSum (l : List Processo) (t : Int) : Nat :=
  (l.map fun p => (p.tempo_chegada - t).toNat).sum

/-! Basic facts about the arrival scan and the sums used in the
termination measures. -/

theorem chegados_pendentes_perm (st : SchedState) :
    (chegadosDe st ++ pendentesDe st).Perm st.processos :=
  List.filter_append_perm _ _

theorem mem_chegadosDe {st : SchedState} {p : Processo} :
    p ∈ chegadosDe st ↔ p ∈ st.processos ∧ p.tempo_chegada ≤ st.tempo_atual := by
  simp [chegadosDe, List.mem_filter]

theorem mem_pendentesDe {st : SchedState} {p : Processo} :
    p ∈ pendentesDe st ↔ p ∈ st.processos ∧ ¬ p.tempo_chegada ≤ st.tempo_atual := by
  simp [pendentesDe, List.mem_filter]

theorem fcfsFila_perm (st : SchedState) :
    (fcfsFila st).Perm (st.fila_prontos ++ chegadosDe st) :=
  List.perm_insertionSort _ _

theorem mem_fcfsFila {st : SchedState} {p : Processo} :
    p ∈ fcfsFila st ↔ p ∈ st.fila_prontos ∨ p ∈ chegadosDe st := by
  rw [(fcfsFila_perm st).mem_iff, List.mem_append]

theorem fcfsFila_sorted (st : SchedState) : List.Sorted chegadaLe (fcfsFila st) :=
  List.sorted_insertionSort _ _

theorem sjfFila_perm (st : SchedState) :
    (sjfFila st).Perm (st.fila_prontos ++ chegadosDe st) :=
  List.perm_insertionSort _ _

theorem mem_sjfFila {st : SchedState} {p : Processo} :
    p ∈ sjfFila st ↔ p ∈ st.fila_prontos ∨ p ∈ chegadosDe st := by
  rw [(sjfFila_perm st).mem_iff, List.mem_append]

theorem sjfFila_sorted (st : SchedState) : List.Sorted execucaoLe (sjfFila st) :=
  List.sorted_insertionSort _ _

theorem rrChegados_pendentes_perm (st : RRState) :
    (rrChegados st ++ rrPendentes st).Perm st.processos :=
  List.filter_append_perm _ _

theorem mem_rrChegados {st : RRState} {p : Processo} :
    p ∈ rrChegados st ↔ p ∈ st.processos ∧ p.tempo_chegada ≤ st.tempo_atual := by
  simp [rrChegados, List.mem_filter]

theorem mem_rrPendentes {st : RRState} {p : Processo} :
    p ∈ rrPendentes st ↔ p ∈ st.processos ∧ ¬ p.tempo_chegada ≤ st.tempo_atual := by
  simp [rrPendentes, List.mem_filter]

theorem mem_rrFila {st : RRState} {p : Processo} :
    p ∈ rrFila st ↔ p ∈ st.fila_prontos ∨ p ∈ rrChegados st := by
  rw [rrFila, List.mem_append]

theorem gapSum_nil (t : Int) : gapSum [] t = 0 := rfl

theorem gapSum_append (l₁ l₂ : List Processo) (t : Int) :
    gapSum (l₁ ++ l₂) t = gapSum l₁ t + gapSum l₂ t := by
  simp [gapSum]

theorem gapSum_perm {l₁ l₂ : List Processo} (h : l₁.Perm l₂) (t : Int) :
    gapSum l₁ t = gapSum l₂ t :=
  (h.map _).sum_eq

theorem gapSum_mono {t t' : Int} (h : t ≤ t') (l : List Processo) :
    gapSum l t' ≤ gapSum l t := by
  refine List.sum_le_sum fun p _ => ?_
  exact Int.toNat_le_toNat (by omega)

theorem gapSum_lt {t t' : Int} {l : List Processo} (hne : l ≠ [])
    (hall : ∀ p ∈ l, t + 1 ≤ p.tempo_chegada) (ht : t + 1 ≤ t') :
    gapSum l t' < gapSum l t := by
  match l, hne with
  | p :: resto, _ =>
    have h1 : (p.tempo_chegada - t').toNat < (p.tempo_chegada - t).toNat := by
      have hp := hall p (by simp)
      rw [Int.toNat_lt_toNat (by omega)]
      omega
    have h2 : gapSum resto t' ≤ gapSum resto t := gapSum_mono (by omega) resto
    have e1 : gapSum (p :: resto) t' = (p.tempo_chegada - t').toNat + gapSum resto t' := by
      simp [gapSum]
    have e2 : gapSum (p :: resto) t = (p.tempo_chegada - t).toNat + gapSum resto t := by
      simp [gapSum]
    omega

theorem execSum_append (l₁ l₂ : List Processo) :
    execSum (l₁ ++ l₂) = execSum l₁ + execSum l₂ := by
  simp [execSum]

theorem execSum_perm {l₁ l₂ : List Processo} (h : l₁.Perm l₂) :
    execSum l₁ = execSum l₂ :=
  (h.map _).sum_eq

theorem pids_append (l₁ l₂ : List Processo) : pids (l₁ ++ l₂) = pids l₁ ++ pids l₂ := by
  simp [pids]

theorem pids_perm {l₁ l₂ : List Processo} (h : l₁.Perm l₂) : (pids l₁).Perm (pids l₂) :=
  h.map _

/-! Conservation: every step of each loop preserves the multiset of process
identifiers spread over the pending set, the ready queue and the completed
list. -/

/-- Multiset of all identifiers held by an FCFS or SJF engine state. -/
def mpids (st : SchedState) : Multiset Nat :=
  (pids st.processos : Multiset Nat) + (pids st.fila_prontos : Multiset Nat)
    + (pids st.processos_concluidos : Multiset Nat)

/-- Multiset of all identifiers held by a Round-Robin engine state. -/
def rrMpids (st : RRState) : Multiset Nat :=
  (pids st.processos : Multiset Nat) + (pids st.fila_prontos : Multiset Nat)
    + (pids st.processos_concluidos : Multiset Nat)

theorem coe_pids_chegados_pendentes (st : SchedState) :
    (pids (chegadosDe st) : Multiset Nat) + (pids (pendentesDe st) : Multiset Nat)
      = (pids st.processos : Multiset Nat) := by
  rw [Multiset.coe_add, Multiset.coe_eq_coe]
  have h := pids_perm (chegados_pendentes_perm st)
  rwa [pids_append] at h

theorem coe_pids_fcfsFila (st : SchedState) :
    (pids (fcfsFila st) : Multiset Nat)
      = (pids st.fila_prontos : Multiset Nat) + (pids (chegadosDe st) : Multiset Nat) := by
  rw [Multiset.coe_add, Multiset.coe_eq_coe]
  have h := pids_perm (fcfsFila_perm st)
  rwa [pids_append] at h

theorem coe_pids_sjfFila (st : SchedState) :
    (pids (sjfFila st) : Multiset Nat)
      = (pids st.fila_prontos : Multiset Nat) + (pids (chegadosDe st) : Multiset Nat) := by
  rw [Multiset.coe_add, Multiset.coe_eq_coe]
  have h := pids_perm (sjfFila_perm st)
  rwa [pids_append] at h

theorem coe_pids_rrChegados (st : RRState) :
    (pids (rrChegados st) : Multiset Nat) + (pids (rrPendentes st) : Multiset Nat)
      = (pids st.processos : Multiset Nat) := by
  rw [Multiset.coe_add, Multiset.coe_eq_coe]
  have h := pids_perm (rrChegados_pendentes_perm st)
  rwa [pids_append] at h

theorem fila_nil_fila_chegados {st : SchedState} (h : st.fila_prontos ++ chegadosDe st = []) :
    st.fila_prontos = [] ∧ chegadosDe st = [] ∧ pendentesDe st = st.processos := by
  rcases List.append_eq_nil.mp h with ⟨h1, h2⟩
  refine ⟨h1, h2, ?_⟩
  rw [pendentesDe, List.filter_eq_self]
  intro a ha
  have := List.filter_eq_nil_iff.mp h2 a ha
  simpa using this

theorem fcfsFila_nil {st : SchedState} (h : fcfsFila st = []) :
    st.fila_prontos = [] ∧ chegadosDe st = [] ∧ pendentesDe st = st.processos := by
  apply fila_nil_fila_chegados
  have hp := fcfsFila_perm st
  rw [h] at hp
  exact (List.perm_nil.mp hp.symm)

theorem sjfFila_nil {st : SchedState} (h : sjfFila st = []) :
    st.fila_prontos = [] ∧ chegadosDe st = [] ∧ pendentesDe st = st.processos := by
  apply fila_nil_fila_chegados
  have hp := sjfFila_perm st
  rw [h] at hp
  exact (List.perm_nil.mp hp.symm)

theorem fcfsStep_mpids (st : SchedState) : mpids (fcfsStep st) = mpids st := by
  rcases h : fcfsFila st with _ | ⟨p, resto⟩
  · obtain ⟨h1, _, h3⟩ := fcfsFila_nil h
    simp only [fcfsStep, h, mpids, h3, h1]
  · have hcp := coe_pids_chegados_pendentes st
    have hfila := coe_pids_fcfsFila st
    rw [h] at hfila
    simp only [fcfsStep, mpids, h]
    ext a
    have hcp' := congrArg (Multiset.count a) hcp
    have hfila' := congrArg (Multiset.count a) hfila
    simp only [pids, List.map_append, List.map_cons, List.map_nil, ← Multiset.coe_add,
      ← Multiset.cons_coe, Multiset.coe_nil, Multiset.count_add, Multiset.count_cons,
      Multiset.count_zero] at hcp' hfila' ⊢
    omega

/-! The requeue branch of preemptive SJF is dead code: the ready queue was
just sorted by remaining burst, so its head is already minimal and the
strictly-shorter re-check can never succeed. -/

theorem le_foldl_min {c : Int} (a : Int) (l : List Processo) (ha : c ≤ a)
    (h : ∀ q ∈ l, c ≤ q.tempo_execucao) :
    c ≤ l.foldl (fun m q => min m q.tempo_execucao) a := by
  induction l generalizing a with
  | nil => exact ha
  | cons q l ih =>
    exact ih _ (le_min ha (h q (by simp))) fun r hr => h r (by simp [hr])

theorem le_minExecucao {p : Processo} {resto : List Processo}
    (hs : List.Sorted execucaoLe (p :: resto)) (hne : resto ≠ []) :
    p.tempo_execucao ≤ minExecucao resto := by
  match resto, hne with
  | q :: qs, _ =>
    have hall := (List.sorted_cons.mp hs).1
    exact le_foldl_min _ _ (hall q (by simp)) fun r hr => hall r (by simp [hr])

theorem sjfStep_eq (b : Bool) (st : SchedState) : sjfStep b st = sjfStep false st := by
  cases b with
  | false => rfl
  | true =>
    rcases h : sjfFila st with _ | ⟨p, resto⟩
    · simp only [sjfStep, h]
    · simp only [sjfStep, h]
      rw [if_neg, if_neg]
      all_goals
        rintro ⟨-, hne, hlt⟩
        have hs := sjfFila_sorted st
        rw [h] at hs
        have hmin := le_minExecucao hs hne
        exact absurd hlt (by omega)

theorem sjfStep_mpids (st : SchedState) : mpids (sjfStep false st) = mpids st := by
  rcases h : sjfFila st with _ | ⟨p, resto⟩
  · obtain ⟨h1, _, h3⟩ := sjfFila_nil h
    simp only [sjfStep, h, mpids, h3, h1]
  · have hcp := coe_pids_chegados_pendentes st
    have hfila := coe_pids_sjfFila st
    rw [h] at hfila
    simp only [sjfStep, h]
    rw [if_neg (by simp)]
    simp only [mpids]
    ext a
    have hcp' := congrArg (Multiset.count a) hcp
    have hfila' := congrArg (Multiset.count a) hfila
    simp only [pids, List.map_append, List.map_cons, List.map_nil, ← Multiset.coe_add,
      ← Multiset.cons_coe, Multiset.coe_nil, Multiset.count_add, Multiset.count_cons,
      Multiset.count_zero] at hcp' hfila' ⊢
    omega

theorem rrFila_nil {st : RRState} (h : rrFila st = []) :
    st.fila_prontos = [] ∧ rrChegados st = [] ∧ rrPendentes st = st.processos := by
  rcases List.append_eq_nil.mp h with ⟨h1, h2⟩
  refine ⟨h1, h2, ?_⟩
  rw [rrPendentes, List.filter_eq_self]
  intro a ha
  have := List.filter_eq_nil_iff.mp h2 a ha
  simpa using this

theorem rrStep_mpids (st : RRState) : rrMpids (rrStep st) = rrMpids st := by
  rcases h : rrFila st with _ | ⟨p, resto⟩
  · obtain ⟨h1, _, h3⟩ := rrFila_nil h
    rcases hp : rrPendentes st with _ | ⟨q, qs⟩
    · have hproc : st.processos = [] := by rw [← h3, hp]
      simp only [rrStep, h, hp, rrMpids, hproc, h1]
    · have hq : st.processos = q :: qs := by rw [← h3, hp]
      simp only [rrStep, h, hp, rrMpids]
      rw [hq, h1]
  · have hcp := coe_pids_rrChegados st
    have hfila : (pids (rrFila st) : Multiset Nat)
        = (pids st.fila_prontos : Multiset Nat) + (pids (rrChegados st) : Multiset Nat) := by
      rw [Multiset.coe_add, Multiset.coe_eq_coe, rrFila, pids_append]
    rw [h] at hfila
    simp only [rrStep, h]
    split
    · simp only [rrMpids]
      ext a
      have hcp' := congrArg (Multiset.count a) hcp
      have hfila' := congrArg (Multiset.count a) hfila
      simp only [pids, List.map_append, List.map_cons, List.map_nil, ← Multiset.coe_add,
        ← Multiset.cons_coe, Multiset.coe_nil, Multiset.count_add, Multiset.count_cons,
        Multiset.count_zero] at hcp' hfila' ⊢
      omega
    · simp only [rrMpids]
      ext a
      have hcp' := congrArg (Multiset.count a) hcp
      have hfila' := congrArg (Multiset.count a) hfila
      simp only [pids, List.map_append, List.map_cons, List.map_nil, ← Multiset.coe_add,
        ← Multiset.cons_coe, Multiset.coe_nil, Multiset.count_add, Multiset.count_cons,
        Multiset.count_zero] at hcp' hfila' ⊢
      omega

/-! Lifting the per-step facts through the fuel-indexed loops. -/

theorem fcfsRun_of_done {st : SchedState} (h : loopDone st) (n : Nat) : fcfsRun n st = st := by
  cases n with
  | zero => rfl
  | succ n => simp [fcfsRun, h]

theorem sjfRun_of_done (b : Bool) {st : SchedState} (h : loopDone st) (n : Nat) :
    sjfRun b n st = st := by
  cases n with
  | zero => rfl
  | succ n => simp [sjfRun, h]

theorem rrRun_of_done {st : RRState} (h : rrLoopDone st) (n : Nat) : rrRun n st = st := by
  cases n with
  | zero => rfl
  | succ n => simp [rrRun, h]

theorem sjfRun_eq (b : Bool) (n : Nat) (st : SchedState) :
    sjfRun b n st = sjfRun false n st := by
  induction n generalizing st with
  | zero => rfl
  | succ n ih =>
    simp only [sjfRun]
    split
    · rfl
    · rw [sjfStep_eq b st, ih]

theorem fcfsRun_mpids (n : Nat) (st : SchedState) : mpids (fcfsRun n st) = mpids st := by
  induction n generalizing st with
  | zero => rfl
  | succ n ih =>
    simp only [fcfsRun]
    split
    · rfl
    · rw [ih, fcfsStep_mpids]

theorem sjfRun_mpids (n : Nat) (st : SchedState) : mpids (sjfRun false n st) = mpids st := by
  induction n generalizing st with
  | zero => rfl
  | succ n ih =>
    simp only [sjfRun]
    split
    · rfl
    · rw [ih, sjfStep_mpids]

theorem rrRun_mpids (n : Nat) (st : RRState) : rrMpids (rrRun n st) = rrMpids st := by
  induction n generalizing st with
  | zero => rfl
  | succ n ih =>
    simp only [rrRun]
    split
    · rfl
    · rw [ih, rrStep_mpids]

theorem mpids_initState (ps : List Processo) :
    mpids (initState ps) = (pids ps : Multiset Nat) := by
  simp only [mpids, initState, pids, List.map_nil, Multiset.coe_nil, add_zero]
  rw [Multiset.coe_eq_coe]
  exact (List.perm_insertionSort chegadaLe ps).map _

theorem rrMpids_rrInit (ps : List Processo) (q : Int) :
    rrMpids (rrInit ps q) = (pids ps : Multiset Nat) := by
  simp only [rrMpids, rrInit, pids, List.map_nil, Multiset.coe_nil, add_zero]
  rw [Multiset.coe_eq_coe]
  exact (List.perm_insertionSort chegadaLe ps).map _

theorem mpids_done_concluidos {st : SchedState} (h : loopDone st) :
    mpids st = (pids st.processos_concluidos : Multiset Nat) := by
  simp [mpids, h.1, h.2, pids]

theorem rrMpids_done_concluidos {st : RRState} (h : rrLoopDone st) :
    rrMpids st = (pids st.processos_concluidos : Multiset Nat) := by
  simp [rrMpids, h.1, h.2, pids]

/-! Termination of the FCFS and SJF loops: with non-negative bursts the
clock never goes backwards, each dispatching iteration removes a process,
and each idle iteration advances the clock towards the next arrival. -/

/-- All queued work is non-negative (holds for valid input and is preserved
by every FCFS/SJF iteration). -/
def ExecNonneg (st : SchedState) : Prop :=
  (∀ p ∈ st.processos, 0 ≤ p.tempo_execucao) ∧ (∀ p ∈ st.fila_prontos, 0 ≤ p.tempo_execucao)

/-- Termination measure for the FCFS and SJF loops. -/
def schedMeasure (st : SchedState) : Nat :=
  st.processos.length + st.fila_prontos.length + gapSum st.processos st.tempo_atual

theorem chegados_pendentes_length (st : SchedState) :
    (chegadosDe st).length + (pendentesDe st).length = st.processos.length := by
  have h := (chegados_pendentes_perm st).length_eq
  simpa using h

theorem gapSum_pendentes_le (st : SchedState) :
    gapSum (pendentesDe st) st.tempo_atual ≤ gapSum st.processos st.tempo_atual := by
  have h := gapSum_perm (chegados_pendentes_perm st) st.tempo_atual
  rw [gapSum_append] at h
  omega

theorem fcfsStep_execNonneg {st : SchedState} (hE : ExecNonneg st) :
    ExecNonneg (fcfsStep st) := by
  rcases h : fcfsFila st with _ | ⟨p, resto⟩ <;> simp only [fcfsStep, h]
  · exact ⟨fun p hp => hE.1 p (mem_pendentesDe.mp hp).1, by simp⟩
  · refine ⟨fun q hq => hE.1 q (mem_pendentesDe.mp hq).1, fun q hq => ?_⟩
    have : q ∈ fcfsFila st := h ▸ List.mem_cons_of_mem p hq
    rcases mem_fcfsFila.mp this with hm | hm
    · exact hE.2 q hm
    · exact hE.1 q (mem_chegadosDe.mp hm).1

theorem sjfStep_execNonneg {st : SchedState} (hE : ExecNonneg st) :
    ExecNonneg (sjfStep false st) := by
  rcases h : sjfFila st with _ | ⟨p, resto⟩
  · simp only [sjfStep, h]
    exact ⟨fun p hp => hE.1 p (mem_pendentesDe.mp hp).1, by simp⟩
  · simp only [sjfStep, h]
    rw [if_neg (by simp)]
    refine ⟨fun q hq => hE.1 q (mem_pendentesDe.mp hq).1, fun q hq => ?_⟩
    have : q ∈ sjfFila st := h ▸ List.mem_cons_of_mem p hq
    rcases mem_sjfFila.mp this with hm | hm
    · exact hE.2 q hm
    · exact hE.1 q (mem_chegadosDe.mp hm).1

theorem mem_fila_execNonneg {st : SchedState} (hE : ExecNonneg st) {p : Processo}
    (hp : p ∈ st.fila_prontos ∨ p ∈ chegadosDe st) : 0 ≤ p.tempo_execucao := by
  rcases hp with hm | hm
  · exact hE.2 p hm
  · exact hE.1 p (mem_chegadosDe.mp hm).1

theorem idle_gap_lt {st : SchedState} (hnd : ¬ loopDone st)
    (h1 : st.fila_prontos = []) (h2 : chegadosDe st = []) :
    gapSum st.processos (st.tempo_atual + 1) < gapSum st.processos st.tempo_atual := by
  have hne : st.processos ≠ [] := fun hc => hnd ⟨hc, h1⟩
  refine gapSum_lt hne (fun p hp => ?_) (le_refl _)
  have := List.filter_eq_nil_iff.mp h2 p hp
  simp only [decide_eq_true_eq] at this
  omega

theorem fcfsStep_measure_lt {st : SchedState} (hE : ExecNonneg st) (hnd : ¬ loopDone st) :
    schedMeasure (fcfsStep st) < schedMeasure st := by
  have hlen := chegados_pendentes_length st
  rcases h : fcfsFila st with _ | ⟨p, resto⟩
  · obtain ⟨h1, h2, h3⟩ := fcfsFila_nil h
    have hgap := idle_gap_lt hnd h1 h2
    simp only [fcfsStep, h, schedMeasure, h3, h1]
    simp only [List.length_nil]
    omega
  · have hfl : st.fila_prontos.length + (chegadosDe st).length = resto.length + 1 := by
      have := (fcfsFila_perm st).length_eq
      rw [h] at this
      simp at this
      omega
    have hpe : 0 ≤ p.tempo_execucao :=
      mem_fila_execNonneg hE (mem_fcfsFila.mp (h ▸ List.mem_cons_self p resto))
    have hg1 : gapSum (pendentesDe st) (st.tempo_atual + p.tempo_execucao)
        ≤ gapSum (pendentesDe st) st.tempo_atual := gapSum_mono (by omega) _
    have hg2 := gapSum_pendentes_le st
    simp only [fcfsStep, h, schedMeasure]
    omega

theorem sjfStep_measure_lt {st : SchedState} (hE : ExecNonneg st) (hnd : ¬ loopDone st) :
    schedMeasure (sjfStep false st) < schedMeasure st := by
  have hlen := chegados_pendentes_length st
  rcases h : sjfFila st with _ | ⟨p, resto⟩
  · obtain ⟨h1, h2, h3⟩ := sjfFila_nil h
    have hgap := idle_gap_lt hnd h1 h2
    simp only [sjfStep, h, schedMeasure, h3, h1]
    simp only [List.length_nil]
    omega
  · have hfl : st.fila_prontos.length + (chegadosDe st).length = resto.length + 1 := by
      have := (sjfFila_perm st).length_eq
      rw [h] at this
      simp at this
      omega
    have hpe : 0 ≤ p.tempo_execucao :=
      mem_fila_execNonneg hE (mem_sjfFila.mp (h ▸ List.mem_cons_self p resto))
    have hg1 : gapSum (pendentesDe st) (st.tempo_atual + p.tempo_execucao)
        ≤ gapSum (pendentesDe st) st.tempo_atual := gapSum_mono (by omega) _
    have hg2 := gapSum_pendentes_le st
    simp only [sjfStep, h]
    rw [if_neg (by simp)]
    simp only [schedMeasure]
    omega

theorem fcfsRun_done (n : Nat) : ∀ st, ExecNonneg st → schedMeasure st ≤ n →
    loopDone (fcfsRun n st) := by
  induction n with
  | zero =>
    intro st _ hm
    have : st.processos.length = 0 ∧ st.fila_prontos.length = 0 := by
      simp only [schedMeasure] at hm
      omega
    exact ⟨List.length_eq_zero.mp this.1, List.length_eq_zero.mp this.2⟩
  | succ n ih =>
    intro st hE hm
    by_cases hd : loopDone st
    · simp [fcfsRun, hd]
    · have hstep := fcfsStep_measure_lt hE hd
      simp only [fcfsRun, if_neg hd]
      exact ih _ (fcfsStep_execNonneg hE) (by omega)

theorem sjfRun_done (n : Nat) : ∀ st, ExecNonneg st → schedMeasure st ≤ n →
    loopDone (sjfRun false n st) := by
  induction n with
  | zero =>
    intro st _ hm
    have : st.processos.length = 0 ∧ st.fila_prontos.length = 0 := by
      simp only [schedMeasure] at hm
      omega
    exact ⟨List.length_eq_zero.mp this.1, List.length_eq_zero.mp this.2⟩
  | succ n ih =>
    intro st hE hm
    by_cases hd : loopDone st
    · simp [sjfRun, hd]
    · have hstep := sjfStep_measure_lt hE hd
      simp only [sjfRun, if_neg hd]
      exact ih _ (sjfStep_execNonneg hE) (by omega)

theorem initState_execNonneg {ps : List Processo} (hv : ValidInput ps) :
    ExecNonneg (initState ps) := by
  constructor
  · intro p hp
    have hmem : p ∈ ps := ((List.perm_insertionSort chegadaLe ps).mem_iff).mp hp
    exact le_of_lt (hv p hmem).2.1
  · simp [initState]

/-! The FCFS loop invariant: burst fields are never mutated, queued
processes have arrived, metrics of completed processes are well-formed, and
the completed list is ordered both by arrival time and by completion time. -/

/-- Invariant of the FCFS loop. -/
structure FcfsInv (st : SchedState) : Prop where
  procExec : ∀ q ∈ st.processos, 0 ≤ q.tempo_execucao ∧ q.tempo_execucao = q.tempo_execucao_original
  filaExec : ∀ q ∈ st.fila_prontos, 0 ≤ q.tempo_execucao ∧ q.tempo_execucao = q.tempo_execucao_original
  filaCheg : ∀ q ∈ st.fila_prontos, q.tempo_chegada ≤ st.tempo_atual
  conclOk : ∀ q ∈ st.processos_concluidos,
    0 ≤ q.tempo_espera ∧ q.tempo_execucao_original ≤ q.tempo_resposta_total ∧
      q.tempo_execucao = q.tempo_execucao_original ∧
      ∃ c, q.tempo_conclusao = some c ∧ c ≤ st.tempo_atual
  conclPar : List.Pairwise (fun a b => a.tempo_chegada ≤ b.tempo_chegada ∧
      ∀ ca cb, a.tempo_conclusao = some ca → b.tempo_conclusao = some cb → ca ≤ cb)
    st.processos_concluidos
  conclLeProc : ∀ a ∈ st.processos_concluidos, ∀ b ∈ st.processos, a.tempo_chegada ≤ b.tempo_chegada
  conclLeFila : ∀ a ∈ st.processos_concluidos, ∀ b ∈ st.fila_prontos, a.tempo_chegada ≤ b.tempo_chegada

theorem fcfsStep_inv {st : SchedState} (hI : FcfsInv st) : FcfsInv (fcfsStep st) := by
  rcases h : fcfsFila st with _ | ⟨p, resto⟩
  · obtain ⟨h1, _, h3⟩ := fcfsFila_nil h
    simp only [fcfsStep, h]
    refine ⟨?_, by simp, by simp, ?_, hI.conclPar, ?_, by simp⟩
    · rw [h3]; exact hI.procExec
    · intro q hq
      obtain ⟨he, hr, hx, c, hc, hct⟩ := hI.conclOk q hq
      exact ⟨he, hr, hx, c, hc, show c ≤ st.tempo_atual + 1 by omega⟩
    · rw [h3]; exact hI.conclLeProc
  · have hmemp : p ∈ st.fila_prontos ∨ p ∈ chegadosDe st :=
      mem_fcfsFila.mp (h ▸ List.mem_cons_self p resto)
    have hrestomem : ∀ a ∈ resto, a ∈ st.fila_prontos ∨ a ∈ chegadosDe st := fun a ha =>
      mem_fcfsFila.mp (h ▸ List.mem_cons_of_mem p ha)
    have hsorted : ∀ a ∈ resto, p.tempo_chegada ≤ a.tempo_chegada := by
      have hs := fcfsFila_sorted st
      rw [h, List.sorted_cons] at hs
      exact hs.1
    have hqprop : ∀ a, a ∈ st.fila_prontos ∨ a ∈ chegadosDe st →
        (0 ≤ a.tempo_execucao ∧ a.tempo_execucao = a.tempo_execucao_original) ∧
          a.tempo_chegada ≤ st.tempo_atual := by
      rintro a (hm | hm)
      · exact ⟨hI.filaExec a hm, hI.filaCheg a hm⟩
      · obtain ⟨hmm, hle⟩ := mem_chegadosDe.mp hm
        exact ⟨hI.procExec a hmm, hle⟩
    have hparr : p.tempo_chegada ≤ st.tempo_atual := (hqprop p hmemp).2
    have hpexec := (hqprop p hmemp).1
    have hconcl_le_p : ∀ a ∈ st.processos_concluidos, a.tempo_chegada ≤ p.tempo_chegada := by
      intro a ha
      rcases hmemp with hm | hm
      · exact hI.conclLeFila a ha p hm
      · exact hI.conclLeProc a ha p (mem_chegadosDe.mp hm).1
    simp only [fcfsStep, h]
    refine ⟨?_, ?_, ?_, ?_, ?_, ?_, ?_⟩
    · intro q hq
      exact hI.procExec q (mem_pendentesDe.mp hq).1
    · intro q hq
      exact (hqprop q (hrestomem q hq)).1
    · intro q hq
      have hq2 := (hqprop q (hrestomem q hq)).2
      exact show q.tempo_chegada ≤ st.tempo_atual + p.tempo_execucao by omega
    · intro q hq
      rcases List.mem_append.mp hq with hold | hnew
      · obtain ⟨he, hr, hx, c, hc, hct⟩ := hI.conclOk q hold
        exact ⟨he, hr, hx, c, hc,
          show c ≤ st.tempo_atual + p.tempo_execucao by omega⟩
      · rw [List.mem_singleton.mp hnew]
        refine ⟨le_max_left 0 _,
          show p.tempo_execucao_original ≤ st.tempo_atual + p.tempo_execucao - p.tempo_chegada
            by omega,
          hpexec.2, st.tempo_atual + p.tempo_execucao, rfl, le_refl _⟩
    · rw [List.pairwise_append]
      refine ⟨hI.conclPar, List.pairwise_singleton _ _, ?_⟩
      intro a ha b hb
      rw [List.mem_singleton.mp hb]
      refine ⟨hconcl_le_p a ha, ?_⟩
      intro ca cb hca hcb
      obtain ⟨_, _, _, c, hc, hct⟩ := hI.conclOk a ha
      rw [hca] at hc
      have hca2 := Option.some.inj hc
      have hcb' : some (st.tempo_atual + p.tempo_execucao) = some cb := hcb
      have hcb2 := Option.some.inj hcb'
      omega
    · intro a ha b hb
      rcases List.mem_append.mp ha with hold | hnew
      · exact hI.conclLeProc a hold b (mem_pendentesDe.mp hb).1
      · rw [List.mem_singleton.mp hnew]
        have hb2 := (mem_pendentesDe.mp hb).2
        exact show p.tempo_chegada ≤ b.tempo_chegada by omega
    · intro a ha b hb
      rcases List.mem_append.mp ha with hold | hnew
      · rcases hrestomem b hb with hm | hm
        · exact hI.conclLeFila a hold b hm
        · exact hI.conclLeProc a hold b (mem_chegadosDe.mp hm).1
      · rw [List.mem_singleton.mp hnew]
        exact hsorted b hb

theorem fcfsRun_inv (n : Nat) {st : SchedState} (hI : FcfsInv st) : FcfsInv (fcfsRun n st) := by
  induction n generalizing st with
  | zero => exact hI
  | succ n ih =>
    simp only [fcfsRun]
    split
    · exact hI
    · exact ih (fcfsStep_inv hI)

theorem initState_fcfsInv {ps : List Processo} (hv : ValidInput ps) :
    FcfsInv (initState ps) := by
  refine ⟨?_, by simp [initState], by simp [initState], by simp [initState],
    by simp [initState], by simp [initState], by simp [initState]⟩
  intro p hp
  have hmem : p ∈ ps := ((List.perm_insertionSort chegadaLe ps).mem_iff).mp hp
  obtain ⟨-, hb, ho, -⟩ := hv p hmem
  exact ⟨le_of_lt hb, ho⟩

/-! The SJF loop invariant: queued bursts are untouched until dispatch,
dispatch zeroes the burst, and completed metrics are well-formed. -/

/-- Invariant of the SJF loop. -/
structure SjfInv (st : SchedState) : Prop where
  procExec : ∀ q ∈ st.processos, 0 ≤ q.tempo_execucao ∧ q.tempo_execucao = q.tempo_execucao_original
  filaExec : ∀ q ∈ st.fila_prontos, 0 ≤ q.tempo_execucao ∧ q.tempo_execucao = q.tempo_execucao_original
  filaCheg : ∀ q ∈ st.fila_prontos, q.tempo_chegada ≤ st.tempo_atual
  conclOk : ∀ q ∈ st.processos_concluidos,
    0 ≤ q.tempo_espera ∧ q.tempo_execucao_original ≤ q.tempo_resposta_total ∧
      q.tempo_execucao = 0

theorem sjfStep_inv {st : SchedState} (hI : SjfInv st) : SjfInv (sjfStep false st) := by
  rcases h : sjfFila st with _ | ⟨p, resto⟩
  · obtain ⟨h1, _, h3⟩ := sjfFila_nil h
    simp only [sjfStep, h]
    refine ⟨?_, by simp, by simp, hI.conclOk⟩
    rw [h3]; exact hI.procExec
  · have hmemp : p ∈ st.fila_prontos ∨ p ∈ chegadosDe st :=
      mem_sjfFila.mp (h ▸ List.mem_cons_self p resto)
    have hrestomem : ∀ a ∈ resto, a ∈ st.fila_prontos ∨ a ∈ chegadosDe st := fun a ha =>
      mem_sjfFila.mp (h ▸ List.mem_cons_of_mem p ha)
    have hqprop : ∀ a, a ∈ st.fila_prontos ∨ a ∈ chegadosDe st →
        (0 ≤ a.tempo_execucao ∧ a.tempo_execucao = a.tempo_execucao_original) ∧
          a.tempo_chegada ≤ st.tempo_atual := by
      rintro a (hm | hm)
      · exact ⟨hI.filaExec a hm, hI.filaCheg a hm⟩
      · obtain ⟨hmm, hle⟩ := mem_chegadosDe.mp hm
        exact ⟨hI.procExec a hmm, hle⟩
    have hparr : p.tempo_chegada ≤ st.tempo_atual := (hqprop p hmemp).2
    have hpexec := (hqprop p hmemp).1
    simp only [sjfStep, h]
    rw [if_neg (by simp)]
    refine ⟨?_, ?_, ?_, ?_⟩
    · intro q hq
      exact hI.procExec q (mem_pendentesDe.mp hq).1
    · intro q hq
      exact (hqprop q (hrestomem q hq)).1
    · intro q hq
      have hq2 := (hqprop q (hrestomem q hq)).2
      exact show q.tempo_chegada ≤ st.tempo_atual + p.tempo_execucao by omega
    · intro q hq
      rcases List.mem_append.mp hq with hold | hnew
      · exact hI.conclOk q hold
      · rw [List.mem_singleton.mp hnew]
        exact ⟨le_max_left 0 _,
          show p.tempo_execucao_original ≤ st.tempo_atual + p.tempo_execucao - p.tempo_chegada
            by omega,
          rfl⟩

theorem sjfRun_inv (n : Nat) {st : SchedState} (hI : SjfInv st) : SjfInv (sjfRun false n st) := by
  induction n generalizing st with
  | zero => exact hI
  | succ n ih =>
    simp only [sjfRun]
    split
    · exact hI
    · exact ih (sjfStep_inv hI)

theorem initState_sjfInv {ps : List Processo} (hv : ValidInput ps) :
    SjfInv (initState ps) := by
  refine ⟨?_, by simp [initState], by simp [initState], by simp [initState]⟩
  intro p hp
  have hmem : p ∈ ps := ((List.perm_insertionSort chegadaLe ps).mem_iff).mp hp
  obtain ⟨-, hb, ho, -⟩ := hv p hmem
  exact ⟨le_of_lt hb, ho⟩

/-! The Round-Robin loop invariant: the quantum is positive, the clock is
monotone and non-negative, every queued process has positive remaining work
and a consistent work budget, the last-departure map never points into the
future, and completed metrics are well-formed. -/

/-- Invariant of the Round-Robin loop. -/
structure RrInv (st : RRState) : Prop where
  quantumPos : 0 < st.quantum_tempo
  tempoNonneg : 0 ≤ st.tempo_atual
  procOk : ∀ q ∈ st.processos, 0 < q.tempo_execucao ∧
    q.tempo_execucao = q.tempo_execucao_original ∧ 0 ≤ q.tempo_espera
  filaOk : ∀ q ∈ st.fila_prontos, 0 < q.tempo_execucao ∧ 0 ≤ q.tempo_espera ∧
    q.tempo_chegada + (q.tempo_execucao_original - q.tempo_execucao) ≤ st.tempo_atual ∧
    q.tempo_chegada ≤ st.tempo_atual
  fimLe : ∀ i, st.fim_ultima_execucao i ≤ st.tempo_atual
  conclOk : ∀ q ∈ st.processos_concluidos, 0 ≤ q.tempo_espera ∧
    q.tempo_execucao_original ≤ q.tempo_resposta_total ∧ q.tempo_execucao = 0

theorem foldl_fim_le (l : List Processo) (f : Nat → Int) (t : Int) (h0 : 0 ≤ t)
    (hf : ∀ i, f i ≤ t) :
    ∀ i, (l.foldl (fun g p => fun j => if j = p.pid then (0 : Int) else g j) f) i ≤ t := by
  induction l generalizing f with
  | nil => exact hf
  | cons p l ih =>
    refine ih _ fun i => ?_
    dsimp only
    split
    · exact h0
    · exact hf i

theorem mem_rrFila_ok {st : RRState} (hI : RrInv st) {q : Processo} (hq : q ∈ rrFila st) :
    0 < q.tempo_execucao ∧ 0 ≤ q.tempo_espera ∧
      q.tempo_chegada + (q.tempo_execucao_original - q.tempo_execucao) ≤ st.tempo_atual ∧
      q.tempo_chegada ≤ st.tempo_atual := by
  rcases mem_rrFila.mp hq with hm | hm
  · exact hI.filaOk q hm
  · obtain ⟨hmm, hle⟩ := mem_rrChegados.mp hm
    obtain ⟨he, ho, hs⟩ := hI.procOk q hmm
    exact ⟨he, hs, by omega, hle⟩

/-- The `fim_ultima_execucao` dictionary after one arrival scan. -/
def rrFim (st : RRState) : Nat → Int :=
  (rrChegados st).foldl
    (fun g p => fun j => if j = p.pid then (0 : Int) else g j) st.fim_ultima_execucao

theorem rrFim_le {st : RRState} (hI : RrInv st) : ∀ i, rrFim st i ≤ st.tempo_atual :=
  foldl_fim_le _ _ _ hI.tempoNonneg hI.fimLe

theorem rrStep_inv {st : RRState} (hI : RrInv st) : RrInv (rrStep st) := by
  have hfim := rrFim_le hI
  rcases h : rrFila st with _ | ⟨p, resto⟩
  · obtain ⟨h1, _, h3⟩ := rrFila_nil h
    rcases hp : rrPendentes st with _ | ⟨q0, qs⟩
    · simp only [rrStep, h, hp]
      exact ⟨hI.quantumPos, hI.tempoNonneg, by simp, by simp, hfim, hI.conclOk⟩
    · have hT : st.tempo_atual + 1
          ≤ max (st.tempo_atual + 1) (proximaChegada (q0 :: qs)) := le_max_left _ _
      have h3' : q0 :: qs = st.processos := by rw [← hp, h3]
      have htN := hI.tempoNonneg
      simp only [rrStep, h, hp]
      refine ⟨hI.quantumPos,
        show (0 : Int) ≤ max (st.tempo_atual + 1) (proximaChegada (q0 :: qs)) by omega,
        ?_, by simp, ?_, hI.conclOk⟩
      · intro q hq
        have hq' : q ∈ q0 :: qs := hq
        rw [h3'] at hq'
        exact hI.procOk q hq'
      · intro i
        have hi := hfim i
        exact show rrFim st i ≤ max (st.tempo_atual + 1) (proximaChegada (q0 :: qs)) by omega
  · have hpf := mem_rrFila_ok hI (h ▸ List.mem_cons_self p resto)
    have hrestomem : ∀ a ∈ resto, a ∈ rrFila st := fun a ha =>
      h ▸ List.mem_cons_of_mem p ha
    have htexec1 : 1 ≤ min st.quantum_tempo p.tempo_execucao := by
      have h1 := hI.quantumPos
      have h2 := hpf.1
      omega
    have htN := hI.tempoNonneg
    have hesp : 0 ≤ (if 0 < rrFim st p.pid
        then p.tempo_espera + (st.tempo_atual - rrFim st p.pid)
        else p.tempo_espera + (st.tempo_atual - p.tempo_chegada)) := by
      have h1 := hfim p.pid
      have h2 := hpf.2.1
      have h3 := hpf.2.2.2
      split <;> omega
    simp only [rrStep, h]
    split
    · refine ⟨hI.quantumPos,
        show (0 : Int) ≤ st.tempo_atual + min st.quantum_tempo p.tempo_execucao by omega,
        ?_, ?_, ?_, hI.conclOk⟩
      · intro q hq
        exact hI.procOk q (mem_rrPendentes.mp hq).1
      · intro q hq
        rcases List.mem_append.mp hq with hr | hnew
        · obtain ⟨ha, hb, hc, hd⟩ := mem_rrFila_ok hI (hrestomem q hr)
          refine ⟨ha, hb,
            show q.tempo_chegada + (q.tempo_execucao_original - q.tempo_execucao)
              ≤ st.tempo_atual + min st.quantum_tempo p.tempo_execucao by omega,
            show q.tempo_chegada
              ≤ st.tempo_atual + min st.quantum_tempo p.tempo_execucao by omega⟩
        · rw [List.mem_singleton.mp hnew]
          refine ⟨by assumption, hesp, ?_, ?_⟩
          · have hbud := hpf.2.2.1
            exact show p.tempo_chegada + (p.tempo_execucao_original -
              (p.tempo_execucao - min st.quantum_tempo p.tempo_execucao))
                ≤ st.tempo_atual + min st.quantum_tempo p.tempo_execucao by omega
          · have harr := hpf.2.2.2
            exact show p.tempo_chegada
              ≤ st.tempo_atual + min st.quantum_tempo p.tempo_execucao by omega
      · intro i
        have hi := hfim i
        exact show (if i = p.pid then st.tempo_atual + min st.quantum_tempo p.tempo_execucao
          else rrFim st i) ≤ st.tempo_atual + min st.quantum_tempo p.tempo_execucao by
            split <;> omega
    · refine ⟨hI.quantumPos,
        show (0 : Int) ≤ st.tempo_atual + min st.quantum_tempo p.tempo_execucao by omega,
        ?_, ?_, ?_, ?_⟩
      · intro q hq
        exact hI.procOk q (mem_rrPendentes.mp hq).1
      · intro q hq
        obtain ⟨ha, hb, hc, hd⟩ := mem_rrFila_ok hI (hrestomem q hq)
        refine ⟨ha, hb,
          show q.tempo_chegada + (q.tempo_execucao_original - q.tempo_execucao)
            ≤ st.tempo_atual + min st.quantum_tempo p.tempo_execucao by omega,
          show q.tempo_chegada
            ≤ st.tempo_atual + min st.quantum_tempo p.tempo_execucao by omega⟩
      · intro i
        have hi := hfim i
        exact show (if i = p.pid then st.tempo_atual + min st.quantum_tempo p.tempo_execucao
          else rrFim st i) ≤ st.tempo_atual + min st.quantum_tempo p.tempo_execucao by
            split <;> omega
      · intro q hq
        rcases List.mem_append.mp hq with hold | hnew
        · exact hI.conclOk q hold
        · rw [List.mem_singleton.mp hnew]
          rename_i hnotpos
          have hnotpos' : ¬ 0 < p.tempo_execucao - min st.quantum_tempo p.tempo_execucao :=
            hnotpos
          have hz : p.tempo_execucao - min st.quantum_tempo p.tempo_execucao = 0 := by
            have := hpf.1
            omega
          refine ⟨hesp, ?_, hz⟩
          have hbud := hpf.2.2.1
          exact show p.tempo_execucao_original
            ≤ st.tempo_atual + min st.quantum_tempo p.tempo_execucao - p.tempo_chegada by omega


theorem rrRun_inv (n : Nat) {st : RRState} (hI : RrInv st) : RrInv (rrRun n st) := by
  induction n generalizing st with
  | zero => exact hI
  | succ n ih =>
    simp only [rrRun]
    split
    · exact hI
    · exact ih (rrStep_inv hI)

theorem rrInit_inv {ps : List Processo} {q : Int} (hv : ValidInput ps) (hq : 0 < q) :
    RrInv (rrInit ps q) := by
  refine ⟨hq, le_refl 0, ?_, by simp [rrInit], by simp [rrInit], by simp [rrInit]⟩
  intro p hp
  have hmem : p ∈ ps := ((List.perm_insertionSort chegadaLe ps).mem_iff).mp hp
  obtain ⟨-, hb, ho, hs, -⟩ := hv p hmem
  exact ⟨hb, ho, le_of_eq hs.symm⟩

/-! Termination of the Round-Robin loop: every dispatch consumes at least
one unit of remaining work (quantum and bursts are positive), and every
idle iteration advances the clock towards the next pending arrival. -/

/-- Termination measure for the Round-Robin loop. -/
def rrMeasure (st : RRState) : Nat :=
  execSum st.processos + execSum st.fila_prontos + st.processos.length
    + st.fila_prontos.length + gapSum st.processos st.tempo_atual

theorem rr_chegados_pendentes_facts (st : RRState) :
    execSum (rrChegados st) + execSum (rrPendentes st) = execSum st.processos ∧
      (rrChegados st).length + (rrPendentes st).length = st.processos.length ∧
      gapSum (rrPendentes st) st.tempo_atual ≤ gapSum st.processos st.tempo_atual := by
  have hperm := rrChegados_pendentes_perm st
  refine ⟨?_, ?_, ?_⟩
  · have := execSum_perm hperm
    rwa [execSum_append] at this
  · have := hperm.length_eq
    simpa using this
  · have := gapSum_perm hperm st.tempo_atual
    rw [gapSum_append] at this
    omega

theorem rrStep_measure_lt {st : RRState} (hI : RrInv st) (hnd : ¬ rrLoopDone st) :
    rrMeasure (rrStep st) < rrMeasure st := by
  obtain ⟨hexP, hlenP, hgapP⟩ := rr_chegados_pendentes_facts st
  rcases h : rrFila st with _ | ⟨p, resto⟩
  · obtain ⟨h1, h2, h3⟩ := rrFila_nil h
    rcases hp : rrPendentes st with _ | ⟨q0, qs⟩
    · exact absurd ⟨by rw [← h3, hp], h1⟩ hnd
    · have hq2 : q0 :: qs = st.processos := by rw [← hp, h3]
      have hne : st.processos ≠ [] := by
        rw [← hq2]
        simp
      have harr : ∀ q ∈ st.processos, st.tempo_atual + 1 ≤ q.tempo_chegada := by
        intro q hq
        have := List.filter_eq_nil_iff.mp h2 q hq
        simp only [decide_eq_true_eq] at this
        omega
      have hg1 : gapSum st.processos (max (st.tempo_atual + 1) (proximaChegada st.processos))
          ≤ gapSum st.processos (st.tempo_atual + 1) :=
        gapSum_mono (le_max_left _ _) _
      have hg2 : gapSum st.processos (st.tempo_atual + 1) < gapSum st.processos st.tempo_atual :=
        gapSum_lt hne harr (le_refl _)
      simp only [rrStep, h, hp, rrMeasure, h1]
      rw [hq2]
      simp only [List.length_nil]
      omega
  · have hpf := mem_rrFila_ok hI (h ▸ List.mem_cons_self p resto)
    have htexec1 : 1 ≤ min st.quantum_tempo p.tempo_execucao := by
      have h1 := hI.quantumPos
      have h2 := hpf.1
      omega
    have hex : execSum st.fila_prontos + execSum (rrChegados st)
        = p.tempo_execucao.toNat + execSum resto := by
      have e1 : execSum (rrFila st) = execSum st.fila_prontos + execSum (rrChegados st) := by
        rw [rrFila, execSum_append]
      rw [h] at e1
      simp only [execSum, List.map_cons, List.sum_cons] at e1
      simp only [execSum]
      omega
    have hlen2 : st.fila_prontos.length + (rrChegados st).length = resto.length + 1 := by
      have e1 : (rrFila st).length = st.fila_prontos.length + (rrChegados st).length := by
        rw [rrFila, List.length_append]
      rw [h] at e1
      simp only [List.length_cons] at e1
      omega
    have hgmono : gapSum (rrPendentes st)
        (st.tempo_atual + min st.quantum_tempo p.tempo_execucao)
          ≤ gapSum (rrPendentes st) st.tempo_atual :=
      gapSum_mono (by omega) _
    have hT1 : (p.tempo_execucao - min st.quantum_tempo p.tempo_execucao).toNat
        < p.tempo_execucao.toNat := by
      have := hpf.1
      omega
    simp only [rrStep, h]
    split
    · simp only [rrMeasure, execSum_append, List.length_append]
      simp only [execSum, List.map_cons, List.map_nil, List.sum_cons, List.sum_nil,
        List.length_cons, List.length_nil] at hex hexP ⊢
      omega
    · simp only [rrMeasure, List.length_append]
      omega

theorem rrRun_done (n : Nat) : ∀ st, RrInv st → rrMeasure st ≤ n →
    rrLoopDone (rrRun n st) := by
  induction n with
  | zero =>
    intro st _ hm
    have : st.processos.length = 0 ∧ st.fila_prontos.length = 0 := by
      simp only [rrMeasure] at hm
      omega
    exact ⟨List.length_eq_zero.mp this.1, List.length_eq_zero.mp this.2⟩
  | succ n ih =>
    intro st hI hm
    by_cases hd : rrLoopDone st
    · simp [rrRun, hd]
    · have hstep := rrStep_measure_lt hI hd
      simp only [rrRun, if_neg hd]
      exact ih _ (rrStep_inv hI) (by omega)

/-! Idle iterations always advance the clock. -/

theorem fcfs_idle_advances {st : SchedState} (h : fcfsFila st = []) :
    (fcfsStep st).tempo_atual = st.tempo_atual + 1 := by
  simp [fcfsStep, h]

theorem sjf_idle_advances (b : Bool) {st : SchedState} (h : sjfFila st = []) :
    (sjfStep b st).tempo_atual = st.tempo_atual + 1 := by
  rw [sjfStep_eq]
  simp [sjfStep, h]

theorem rr_idle_advances {st : RRState} (hnd : ¬ rrLoopDone st) (h : rrFila st = []) :
    st.tempo_atual + 1 ≤ (rrStep st).tempo_atual := by
  obtain ⟨h1, _, h3⟩ := rrFila_nil h
  rcases hp : rrPendentes st with _ | ⟨q0, qs⟩
  · exact absurd ⟨by rw [← h3, hp], h1⟩ hnd
  · simp only [rrStep, h, hp]
    exact le_max_left _ _

/-! Conservation at the end of a run. -/

theorem fcfs_pids_perm_of_done {ps : List Processo} {n : Nat}
    (hd : loopDone (fcfsExecutar ps n)) :
    (pids (fcfsExecutar ps n).processos_concluidos).Perm (pids ps) := by
  have h1 : mpids (fcfsExecutar ps n) = mpids (initState ps) := fcfsRun_mpids n (initState ps)
  rw [mpids_done_concluidos hd, mpids_initState] at h1
  exact Multiset.coe_eq_coe.mp h1

theorem sjf_pids_perm_of_done {ps : List Processo} {n : Nat}
    (hd : loopDone (sjfExecutar false ps n)) :
    (pids (sjfExecutar false ps n).processos_concluidos).Perm (pids ps) := by
  have h1 : mpids (sjfExecutar false ps n) = mpids (initState ps) := sjfRun_mpids n (initState ps)
  rw [mpids_done_concluidos hd, mpids_initState] at h1
  exact Multiset.coe_eq_coe.mp h1

theorem rr_pids_perm_of_done {ps : List Processo} {q : Int} {n : Nat}
    (hd : rrLoopDone (rrExecutar ps q n)) :
    (pids (rrExecutar ps q n).processos_concluidos).Perm (pids ps) := by
  have h1 : rrMpids (rrExecutar ps q n) = rrMpids (rrInit ps q) := rrRun_mpids n (rrInit ps q)
  rw [rrMpids_done_concluidos hd, rrMpids_rrInit] at h1
  exact Multiset.coe_eq_coe.mp h1

theorem perm_concluidos_props {l ps : List Processo} (hperm : (pids l).Perm (pids ps))
    (hnd : (pids ps).Nodup) :
    l.length = ps.length ∧ ∀ i ∈ pids ps, (pids l).count i = 1 := by
  constructor
  · have := hperm.length_eq
    simpa [pids] using this
  · intro i hi
    rw [hperm.count_eq]
    exact List.count_eq_one_of_mem hnd hi

/-! Termination of FCFS without any validity assumption, for workloads whose
processes have all arrived by time 0: no idle iteration ever occurs, each
iteration pops one ready process. -/

theorem fcfsRun_done_noPending (n : Nat) : ∀ st, st.processos = [] →
    st.fila_prontos.length ≤ n → loopDone (fcfsRun n st) := by
  induction n with
  | zero =>
    intro st h1 h2
    show loopDone st
    exact ⟨h1, List.length_eq_zero.mp (by omega)⟩
  | succ n ih =>
    intro st h1 h2
    by_cases hd : loopDone st
    · simp [fcfsRun, hd]
    · simp only [fcfsRun, if_neg hd]
      have hch : chegadosDe st = [] := by
        simp [chegadosDe, h1]
      rcases h : fcfsFila st with _ | ⟨p, resto⟩
      · obtain ⟨hf1, -, -⟩ := fcfsFila_nil h
        exact absurd ⟨h1, hf1⟩ hd
      · have hlen : resto.length + 1 = st.fila_prontos.length := by
          have e1 := (fcfsFila_perm st).length_eq
          rw [h, hch] at e1
          simpa using e1
        have hpend : pendentesDe st = [] := by
          simp [pendentesDe, h1]
        apply ih
        · simp only [fcfsStep, h]
          exact hpend
        · simp only [fcfsStep, h]
          omega

theorem fcfs_allArrived_done (ps : List Processo) (hall : ∀ p ∈ ps, p.tempo_chegada ≤ 0) :
    loopDone (fcfsExecutar ps (ps.length + 1)) := by
  by_cases hd : loopDone (initState ps)
  · rw [fcfsExecutar, fcfsRun_of_done hd]
    exact hd
  · have hstep : fcfsExecutar ps (ps.length + 1) = fcfsRun ps.length (fcfsStep (initState ps)) := by
      rw [fcfsExecutar, fcfsRun, if_neg hd]
    rw [hstep]
    have hch : ∀ a ∈ (initState ps).processos, a.tempo_chegada ≤ (initState ps).tempo_atual := by
      intro a ha
      have : a ∈ ps := ((List.perm_insertionSort chegadaLe ps).mem_iff).mp ha
      exact hall a this
    have hpend : pendentesDe (initState ps) = [] := by
      rw [pendentesDe, List.filter_eq_nil_iff]
      intro a ha
      simpa using hch a ha
    have hchg : (chegadosDe (initState ps)).length ≤ ps.length := by
      have h1 := List.length_filter_le
        (fun p => decide (p.tempo_chegada ≤ (initState ps).tempo_atual)) (initState ps).processos
      have h2 : (initState ps).processos.length = ps.length :=
        (List.perm_insertionSort chegadaLe ps).length_eq
      calc (chegadosDe (initState ps)).length ≤ (initState ps).processos.length := h1
        _ = ps.length := h2
    rcases h : fcfsFila (initState ps) with _ | ⟨p, resto⟩
    · obtain ⟨hf1, -, hf3⟩ := fcfsFila_nil h
      have : (initState ps).processos = [] := by rw [← hf3, hpend]
      exact absurd ⟨this, hf1⟩ hd
    · have hlen : resto.length + 1 ≤ ps.length + 1 := by
        have e1 := (fcfsFila_perm (initState ps)).length_eq
        rw [h] at e1
        have e2 : (initState ps).fila_prontos = [] := rfl
        rw [e2] at e1
        simp only [List.length_cons, List.nil_append] at e1
        omega
      apply fcfsRun_done_noPending
      · simp only [fcfsStep, h]
        exact hpend
      · simp only [fcfsStep, h]
        omega

/-! Claim theorems. -/

/-- C8: the empty workload is not an error: `executar` of each policy on the
empty input returns the absent metrics value `none`, and `calcular_metricas`
on an empty completed list is `none` (never a zero-filled record, never a
division by zero). -/
theorem C8_entrada_vazia :
    (∀ n, fcfsMetricas [] n = none) ∧ (∀ b n, sjfMetricas b [] n = none) ∧
      (∀ q n, rrMetricas [] q n = none) ∧ (∀ t, calcularMetricas [] t = none) := by
  have hd : loopDone (initState []) := ⟨rfl, rfl⟩
  refine ⟨fun n => ?_, fun b n => ?_, fun q n => ?_, fun t => rfl⟩
  · rw [fcfsMetricas, fcfsExecutar, fcfsRun_of_done hd]
    rfl
  · rw [sjfMetricas, sjfExecutar, sjfRun_of_done b hd]
    rfl
  · have hrd : rrLoopDone (rrInit [] q) := ⟨rfl, rfl⟩
    rw [rrMetricas, rrExecutar, rrRun_of_done hrd]
    rfl

/-- C9: preemptive and non-preemptive SJF are extensionally equal: for every
input and fuel, `executar(preemptivo=True)` reaches the same engine state
(hence the same completed list and per-process metrics) and returns the same
aggregate metrics as `executar(preemptivo=False)`, because the ready queue is
sorted ascending by remaining burst before the head is popped, so the
strictly-shorter-job re-check can never succeed and the requeue branch is
unreachable. -/
theorem C9_sjf_preemptivo_igual (ps : List Processo) (n : Nat) :
    sjfExecutar true ps n = sjfExecutar false ps n ∧
      sjfMetricas true ps n = sjfMetricas false ps n := by
  have h : sjfExecutar true ps n = sjfExecutar false ps n := sjfRun_eq true n (initState ps)
  refine ⟨h, ?_⟩
  rw [sjfMetricas, sjfMetricas, h]

/-- C1: evaluation at the claim's own scenario.  Under
`EscalonadorSJF.executar(preemptivo=True)` with `A(arrival=0, burst=7)` and
`B(arrival=2, burst=2)`, the code runs A to completion at `t = 7` and only
then runs B, which completes at `t = 9`: A is never preempted at `t = 2` and
B does not complete at `t = 4`, contradicting the specified SRTF behaviour
(the requeue re-check sits after the sort by remaining burst and is dead
code, and the loop only re-examines arrivals between whole bursts). -/
theorem C1_sjf_preemptivo_nao_preempta :
    ((sjfExecutar true [mkProcesso 1 0 7, mkProcesso 2 2 2] 10).processos_concluidos.map
      fun p => (p.pid, p.tempo_conclusao, p.tempo_execucao))
        = [(1, some 7, 0), (2, some 9, 0)] := by
  decide

/-- C3 counterexample: the engine performs no input validation.  For the
input consisting of the single process `pid 1, arrival −3, burst 0` (negative
arrival time and non-positive burst), `EscalonadorFCFS.executar` silently
runs the simulation to completion on the raw values and returns a metrics
record instead of reporting an error: the process is completed with waiting
time 3 and the aggregates are computed from it. -/
theorem C3_contraexemplo :
    ((fcfsExecutar [mkProcesso 1 (-3) 0] 5).processos_concluidos.map
        fun p => (p.pid, p.tempo_espera, p.tempo_conclusao)) = [(1, 3, some 0)] ∧
      (fcfsMetricas [mkProcesso 1 (-3) 0] 5).isSome = true ∧
      loopDone (fcfsExecutar [mkProcesso 1 (-3) 0] 5) := by
  refine ⟨by decide, ?_, by decide⟩
  rw [fcfsMetricas, calcularMetricas, if_neg (by decide)]
  rfl

/-- C3 as amended: no validation happens anywhere: the constructors accept
arbitrary values and `executar` runs the simulation on them unchanged.  In
particular, for every workload whose processes have all arrived by time 0 —
including processes with negative arrival times or non-positive bursts — the
FCFS engine terminates normally with every input process in the completed
list (identifiers preserved up to permutation), rather than rejecting the
input. -/
theorem C3_sem_validacao (ps : List Processo) (hall : ∀ p ∈ ps, p.tempo_chegada ≤ 0) :
    ∃ n, loopDone (fcfsExecutar ps n) ∧
      (pids (fcfsExecutar ps n).processos_concluidos).Perm (pids ps) := by
  refine ⟨ps.length + 1, fcfs_allArrived_done ps hall, ?_⟩
  exact fcfs_pids_perm_of_done (fcfs_allArrived_done ps hall)

theorem C3_sem_validacao_witness :
    (∀ p ∈ [mkProcesso 1 (-3) 0, mkProcesso 2 (-1) (-2)], p.tempo_chegada ≤ 0) ∧
      ∃ n, loopDone (fcfsExecutar [mkProcesso 1 (-3) 0, mkProcesso 2 (-1) (-2)] n) ∧
        (pids
          (fcfsExecutar [mkProcesso 1 (-3) 0, mkProcesso 2 (-1) (-2)] n).processos_concluidos).Perm
          (pids [mkProcesso 1 (-3) 0, mkProcesso 2 (-1) (-2)]) :=
  ⟨by decide, C3_sem_validacao [mkProcesso 1 (-3) 0, mkProcesso 2 (-1) (-2)] (by decide)⟩

/-- C2 counterexample: Round-Robin with quantum 2 on `A(pid 1, arrival 0,
burst 4)` and `B(pid 2, arrival 1, burst 3)`.  B arrives during A's first
slice `[0, 2)`, yet the dispatch log shows A dispatched again at `t = 2`
before B's first dispatch at `t = 4` (both of the first two dispatches are of
pid 1): the preempted process is re-appended *before* the processes that
arrived during its slice, so B is not dispatched before A's re-dispatch,
contrary to the claimed arrival-before-requeue ordering.  Consequently A
completes at `t = 4` and B's response time is 3. -/
theorem C2_contraexemplo :
    (rrExecutar [mkProcesso 1 0 4, mkProcesso 2 1 3] 2 20).despachos
        = [(1, 0), (1, 2), (2, 4), (2, 6)] ∧
      ((rrExecutar [mkProcesso 1 0 4, mkProcesso 2 1 3] 2 20).processos_concluidos.map
          fun p => (p.pid, p.tempo_conclusao, p.tempo_resposta))
        = [(1, some 4, some 0), (2, some 7, some 3)] ∧
      ∀ e ∈ (rrExecutar [mkProcesso 1 0 4, mkProcesso 2 1 3] 2 20).despachos.take 2,
        e.1 = 1 := by
  decide

/-- C2 as amended: when a Round-Robin slice ends with remaining burst > 0,
the preempted process is re-appended to the tail of the ready queue
immediately, *before* any process that arrived during the slice: arrivals
strictly after the dispatch instant are still in the pending set after the
iteration and are only appended on a later iteration, behind the requeued
process; hence the preempted process is dispatched again before a process
that arrived during its slice. -/
theorem C2_requeue_antes_chegadas (st : RRState) (p : Processo) (resto : List Processo)
    (h : rrFila st = p :: resto)
    (hrem : 0 < p.tempo_execucao - min st.quantum_tempo p.tempo_execucao) :
    pids (rrStep st).fila_prontos = pids resto ++ [p.pid] ∧
      (rrStep st).processos = rrPendentes st ∧
      ∀ q ∈ st.processos, st.tempo_atual < q.tempo_chegada → q ∈ (rrStep st).processos := by
  simp only [rrStep, h]
  split
  · refine ⟨by simp [pids], rfl, ?_⟩
    intro q hq hlt
    exact mem_rrPendentes.mpr ⟨hq, by omega⟩
  · rename_i hc
    exact absurd hrem hc

theorem C2_requeue_antes_chegadas_witness :
    rrFila (rrInit [mkProcesso 1 0 4, mkProcesso 2 1 3] 2) = [mkProcesso 1 0 4] ∧
      0 < (mkProcesso 1 0 4).tempo_execucao -
        min (rrInit [mkProcesso 1 0 4, mkProcesso 2 1 3] 2).quantum_tempo
          (mkProcesso 1 0 4).tempo_execucao ∧
      pids (rrStep (rrInit [mkProcesso 1 0 4, mkProcesso 2 1 3] 2)).fila_prontos
          = pids ([] : List Processo) ++ [1] ∧
      ∀ q ∈ (rrInit [mkProcesso 1 0 4, mkProcesso 2 1 3] 2).processos,
        (rrInit [mkProcesso 1 0 4, mkProcesso 2 1 3] 2).tempo_atual < q.tempo_chegada →
          q ∈ (rrStep (rrInit [mkProcesso 1 0 4, mkProcesso 2 1 3] 2)).processos := by
  have h := C2_requeue_antes_chegadas (rrInit [mkProcesso 1 0 4, mkProcesso 2 1 3] 2)
    (mkProcesso 1 0 4) [] (by decide) (by decide)
  exact ⟨by decide, by decide, h.1, h.2.2⟩

/-- C4: conservation.  For every finite valid workload (and positive quantum
for Round-Robin), each of the four policies terminates with a completed list
that is a permutation of the input by process identifier; in particular it
has the same length as the input and, when the input identifiers are
distinct, every input identifier occurs exactly once in it. -/
theorem C4_conservacao (ps : List Processo) (q : Int) (hv : ValidInput ps) (hq : 0 < q)
    (hnd : (pids ps).Nodup) :
    (∃ n, loopDone (fcfsExecutar ps n) ∧
      (pids (fcfsExecutar ps n).processos_concluidos).Perm (pids ps) ∧
      (fcfsExecutar ps n).processos_concluidos.length = ps.length ∧
      ∀ i ∈ pids ps, (pids (fcfsExecutar ps n).processos_concluidos).count i = 1) ∧
    (∀ b, ∃ n, loopDone (sjfExecutar b ps n) ∧
      (pids (sjfExecutar b ps n).processos_concluidos).Perm (pids ps) ∧
      (sjfExecutar b ps n).processos_concluidos.length = ps.length ∧
      ∀ i ∈ pids ps, (pids (sjfExecutar b ps n).processos_concluidos).count i = 1) ∧
    (∃ n, rrLoopDone (rrExecutar ps q n) ∧
      (pids (rrExecutar ps q n).processos_concluidos).Perm (pids ps) ∧
      (rrExecutar ps q n).processos_concluidos.length = ps.length ∧
      ∀ i ∈ pids ps, (pids (rrExecutar ps q n).processos_concluidos).count i = 1) := by
  refine ⟨?_, ?_, ?_⟩
  · refine ⟨schedMeasure (initState ps), ?_, ?_⟩
    · exact fcfsRun_done _ _ (initState_execNonneg hv) (le_refl _)
    · have hd : loopDone (fcfsExecutar ps (schedMeasure (initState ps))) :=
        fcfsRun_done _ _ (initState_execNonneg hv) (le_refl _)
      have hperm := fcfs_pids_perm_of_done hd
      obtain ⟨hl, hc⟩ := perm_concluidos_props hperm hnd
      exact ⟨hperm, hl, hc⟩
  · intro b
    refine ⟨schedMeasure (initState ps), ?_⟩
    have heq : sjfExecutar b ps (schedMeasure (initState ps))
        = sjfExecutar false ps (schedMeasure (initState ps)) :=
      sjfRun_eq b _ (initState ps)
    rw [heq]
    have hd : loopDone (sjfExecutar false ps (schedMeasure (initState ps))) :=
      sjfRun_done _ _ (initState_execNonneg hv) (le_refl _)
    have hperm := sjf_pids_perm_of_done hd
    obtain ⟨hl, hc⟩ := perm_concluidos_props hperm hnd
    exact ⟨hd, hperm, hl, hc⟩
  · refine ⟨rrMeasure (rrInit ps q), ?_⟩
    have hd : rrLoopDone (rrExecutar ps q (rrMeasure (rrInit ps q))) :=
      rrRun_done _ _ (rrInit_inv hv hq) (le_refl _)
    have hperm := rr_pids_perm_of_done hd
    obtain ⟨hl, hc⟩ := perm_concluidos_props hperm hnd
    exact ⟨hd, hperm, hl, hc⟩

theorem C4_conservacao_witness :
    ValidInput [mkProcesso 1 0 2, mkProcesso 2 1 1] ∧
      (∃ n, loopDone (fcfsExecutar [mkProcesso 1 0 2, mkProcesso 2 1 1] n) ∧
        (pids (fcfsExecutar [mkProcesso 1 0 2, mkProcesso 2 1 1] n).processos_concluidos).Perm
          (pids [mkProcesso 1 0 2, mkProcesso 2 1 1]) ∧
        (fcfsExecutar [mkProcesso 1 0 2, mkProcesso 2 1 1] n).processos_concluidos.length
          = ([mkProcesso 1 0 2, mkProcesso 2 1 1] : List Processo).length ∧
        ∀ i ∈ pids [mkProcesso 1 0 2, mkProcesso 2 1 1],
          (pids
            (fcfsExecutar [mkProcesso 1 0 2, mkProcesso 2 1 1] n).processos_concluidos).count i
              = 1) :=
  ⟨by decide,
    (C4_conservacao [mkProcesso 1 0 2, mkProcesso 2 1 1] 2
      (by decide) (by decide) (by decide)).1⟩

/-- C5: termination.  For every finite valid workload each policy's loop
reaches the state with empty pending set and empty ready queue (the sole
loop-exit condition), Round-Robin additionally requiring a positive quantum;
and on every idle iteration (empty merged ready queue) the clock strictly
advances, so the loop never spins. -/
theorem C5_terminacao :
    (∀ ps, ValidInput ps → ∃ n, loopDone (fcfsExecutar ps n)) ∧
      (∀ b ps, ValidInput ps → ∃ n, loopDone (sjfExecutar b ps n)) ∧
      (∀ ps q, ValidInput ps → 0 < q → ∃ n, rrLoopDone (rrExecutar ps q n)) ∧
      (∀ st, fcfsFila st = [] → (fcfsStep st).tempo_atual = st.tempo_atual + 1) ∧
      (∀ b st, sjfFila st = [] → (sjfStep b st).tempo_atual = st.tempo_atual + 1) ∧
      (∀ st, ¬ rrLoopDone st → rrFila st = [] → st.tempo_atual + 1 ≤ (rrStep st).tempo_atual) := by
  refine ⟨?_, ?_, ?_, ?_, ?_, ?_⟩
  · intro ps hv
    exact ⟨schedMeasure (initState ps),
      fcfsRun_done _ _ (initState_execNonneg hv) (le_refl _)⟩
  · intro b ps hv
    refine ⟨schedMeasure (initState ps), ?_⟩
    have heq : sjfExecutar b ps (schedMeasure (initState ps))
        = sjfExecutar false ps (schedMeasure (initState ps)) :=
      sjfRun_eq b _ (initState ps)
    rw [heq]
    exact sjfRun_done _ _ (initState_execNonneg hv) (le_refl _)
  · intro ps q hv hq
    exact ⟨rrMeasure (rrInit ps q), rrRun_done _ _ (rrInit_inv hv hq) (le_refl _)⟩
  · intro st h
    exact fcfs_idle_advances h
  · intro b st h
    exact sjf_idle_advances b h
  · intro st hnd h
    exact rr_idle_advances hnd h

theorem C5_terminacao_witness :
    ValidInput [mkProcesso 1 0 2, mkProcesso 2 3 1] ∧
      ∃ n, loopDone (fcfsExecutar [mkProcesso 1 0 2, mkProcesso 2 3 1] n) :=
  ⟨by decide, C5_terminacao.1 [mkProcesso 1 0 2, mkProcesso 2 3 1] (by decide)⟩

/-- C6: non-negativity of metrics.  For every finite valid workload (and
positive quantum for Round-Robin), every process in the completed list of
each policy — at any point of the run, in particular at the end — has
`tempo_espera ≥ 0` and `tempo_resposta_total` at least its original burst
time. -/
theorem C6_nao_negatividade (ps : List Processo) (hv : ValidInput ps) :
    (∀ n, ∀ p ∈ (fcfsExecutar ps n).processos_concluidos,
        0 ≤ p.tempo_espera ∧ p.tempo_execucao_original ≤ p.tempo_resposta_total) ∧
      (∀ b n, ∀ p ∈ (sjfExecutar b ps n).processos_concluidos,
        0 ≤ p.tempo_espera ∧ p.tempo_execucao_original ≤ p.tempo_resposta_total) ∧
      (∀ q n, 0 < q → ∀ p ∈ (rrExecutar ps q n).processos_concluidos,
        0 ≤ p.tempo_espera ∧ p.tempo_execucao_original ≤ p.tempo_resposta_total) := by
  refine ⟨?_, ?_, ?_⟩
  · intro n p hp
    have hI : FcfsInv (fcfsExecutar ps n) := fcfsRun_inv n (initState_fcfsInv hv)
    obtain ⟨h1, h2, -⟩ := hI.conclOk p hp
    exact ⟨h1, h2⟩
  · intro b n p hp
    have heq : sjfExecutar b ps n = sjfExecutar false ps n := sjfRun_eq b n (initState ps)
    rw [heq] at hp
    have hI : SjfInv (sjfExecutar false ps n) := sjfRun_inv n (initState_sjfInv hv)
    obtain ⟨h1, h2, -⟩ := hI.conclOk p hp
    exact ⟨h1, h2⟩
  · intro q n hq p hp
    have hI : RrInv (rrExecutar ps q n) := rrRun_inv n (rrInit_inv hv hq)
    obtain ⟨h1, h2, -⟩ := hI.conclOk p hp
    exact ⟨h1, h2⟩

theorem C6_nao_negatividade_witness :
    ValidInput [mkProcesso 1 0 2, mkProcesso 2 1 1] ∧
      ∀ p ∈ (fcfsExecutar [mkProcesso 1 0 2, mkProcesso 2 1 1] 10).processos_concluidos,
        0 ≤ p.tempo_espera ∧ p.tempo_execucao_original ≤ p.tempo_resposta_total :=
  ⟨by decide,
    (C6_nao_negatividade [mkProcesso 1 0 2, mkProcesso 2 1 1] (by decide)).1 10⟩

/-- C7: FCFS completion-order monotonicity.  For every finite valid workload
and any fuel, in the FCFS completed list a process with strictly earlier
arrival time than another occupies a strictly earlier position and its
completion time is no later. -/
theorem C7_fcfs_ordem (ps : List Processo) (hv : ValidInput ps) (n : Nat) :
    ∀ i j : Fin (fcfsExecutar ps n).processos_concluidos.length,
      ((fcfsExecutar ps n).processos_concluidos.get i).tempo_chegada
          < ((fcfsExecutar ps n).processos_concluidos.get j).tempo_chegada →
        (i : Nat) < (j : Nat) ∧
          ∀ ci cj, ((fcfsExecutar ps n).processos_concluidos.get i).tempo_conclusao = some ci →
            ((fcfsExecutar ps n).processos_concluidos.get j).tempo_conclusao = some cj →
              ci ≤ cj := by
  have hI : FcfsInv (fcfsExecutar ps n) := fcfsRun_inv n (initState_fcfsInv hv)
  have hpar := hI.conclPar
  rw [List.pairwise_iff_get] at hpar
  intro i j hlt
  have hij : (i : Nat) < (j : Nat) := by
    rcases lt_trichotomy (i : Nat) (j : Nat) with h1 | h1 | h1
    · exact h1
    · exfalso
      have he : i = j := Fin.ext h1
      rw [he] at hlt
      omega
    · exfalso
      have := (hpar j i h1).1
      omega
  exact ⟨hij, fun ci cj hci hcj => (hpar i j hij).2 ci cj hci hcj⟩

theorem C7_fcfs_ordem_witness :
    ValidInput [mkProcesso 1 0 5, mkProcesso 2 1 1] ∧
      ∀ i j : Fin (fcfsExecutar [mkProcesso 1 0 5, mkProcesso 2 1 1] 10).processos_concluidos.length,
        ((fcfsExecutar [mkProcesso 1 0 5, mkProcesso 2 1 1] 10).processos_concluidos.get i).tempo_chegada
          < ((fcfsExecutar [mkProcesso 1 0 5, mkProcesso 2 1 1] 10).processos_concluidos.get j).tempo_chegada →
        (i : Nat) < (j : Nat) ∧
          ∀ ci cj,
            ((fcfsExecutar [mkProcesso 1 0 5, mkProcesso 2 1 1] 10).processos_concluidos.get i).tempo_conclusao = some ci →
            ((fcfsExecutar [mkProcesso 1 0 5, mkProcesso 2 1 1] 10).processos_concluidos.get j).tempo_conclusao = some cj → ci ≤ cj :=
  ⟨by decide, C7_fcfs_ordem [mkProcesso 1 0 5, mkProcesso 2 1 1] (by decide) 10⟩

/-- C10: FCFS never mutates the remaining-burst field: for every finite valid
workload every FCFS-completed process still has `tempo_execucao` equal to
`tempo_execucao_original`, while SJF sets the field of every completed
process to 0 and Round-Robin (with positive quantum) decrements it to 0. -/
theorem C10_fcfs_preserva_burst (ps : List Processo) (hv : ValidInput ps) :
    (∀ n, ∀ p ∈ (fcfsExecutar ps n).processos_concluidos,
        p.tempo_execucao = p.tempo_execucao_original) ∧
      (∀ b n, ∀ p ∈ (sjfExecutar b ps n).processos_concluidos, p.tempo_execucao = 0) ∧
      (∀ q n, 0 < q → ∀ p ∈ (rrExecutar ps q n).processos_concluidos, p.tempo_execucao = 0) := by
  refine ⟨?_, ?_, ?_⟩
  · intro n p hp
    have hI : FcfsInv (fcfsExecutar ps n) := fcfsRun_inv n (initState_fcfsInv hv)
    exact (hI.conclOk p hp).2.2.1
  · intro b n p hp
    have heq : sjfExecutar b ps n = sjfExecutar false ps n := sjfRun_eq b n (initState ps)
    rw [heq] at hp
    have hI : SjfInv (sjfExecutar false ps n) := sjfRun_inv n (initState_sjfInv hv)
    exact (hI.conclOk p hp).2.2
  · intro q n hq p hp
    have hI : RrInv (rrExecutar ps q n) := rrRun_inv n (rrInit_inv hv hq)
    exact (hI.conclOk p hp).2.2

theorem C10_fcfs_preserva_burst_witness :
    ValidInput [mkProcesso 1 0 2, mkProcesso 2 1 1] ∧
      ∀ p ∈ (fcfsExecutar [mkProcesso 1 0 2, mkProcesso 2 1 1] 10).processos_concluidos,
        p.tempo_execucao = p.tempo_execucao_original :=
  ⟨by decide,
    (C10_fcfs_preserva_burst [mkProcesso 1 0 2, mkProcesso 2 1 1] (by decide)).1 10⟩

end TrabalhoSO
